import Mathlib

/-!
Verification of the batch scoring-and-ranking engine in
`src/apps/web/src/lib/scoringUtils.ts`.

Modelling conventions (shallow embedding):

* JavaScript numbers are modelled two ways.  The metric cleaner
  `cleanMetricValue` works over `JSNum`, which keeps the non-finite values
  `NaN` and `±Infinity` explicit, because its claims are about totality and
  finiteness.  The scoring pipeline downstream of cleaning is modelled over
  `ℚ` (exact arithmetic standing for finite IEEE doubles); `toQ` embeds the
  cleaner's output into `ℚ`, collapsing non-finite values to `0`.  Pipeline
  theorems whose truth depends on the numeric metric values therefore carry a
  `FiniteMetrics` hypothesis confining them to inputs whose raw metrics all
  clean to finite numbers, where the embedding is exact.
* Strings are Lean `String`s; the relevant `String` operations of the source
  (`replace(/,/g, "")`, `trim()`, `Number(...)`) are modelled on `List Char`.
  The model of `Number(...)` covers signed decimal literals and the
  `Infinity` forms; exotic forms (hex/binary/exponent literals) are mapped to
  `NaN`, which is sound for every input exercised here.
* `console.log` / `console.warn` calls in the source are pure logging and are
  dropped.
* TypeScript record types become structures; optional object keys become
  `Option`-valued functions from `MetricKey`.
-/

/-- A JavaScript number: a finite value (modelled exactly as a rational),
positive or negative infinity, or `NaN`. -/
inductive JSNum where
  | finite (q : ℚ)
  | posInf
  | negInf
  | nan
deriving DecidableEq, Inhabited

/-- `Number.isFinite` on the `JSNum` model. -/
def JSNum.isFinite : JSNum → Bool
  | .finite _ => true
  | _ => false

/-- A raw metric value as it can reach `cleanMetricValue` (typed `unknown` in
the source): `null`, `undefined`, a number, a string, or a value of any other
JavaScript type (boolean, object, ...), which the function treats uniformly. -/
inductive RawValue where
  | null
  | undefined
  | num (n : JSNum)
  | str (s : String)
  | other
deriving DecidableEq, Inhabited

/-- Numeric value of a list of decimal digit characters (most significant
first), as accumulated left to right. -/
def digitsVal (cs : List Char) : ℕ :=
  cs.foldl (fun a c => a * 10 + (c.toNat - 48)) 0

/-- Model of parsing an unsigned JavaScript decimal literal: digits with an
optional single decimal point (`"12"`, `"12.5"`, `".5"`, `"12."`).  Returns
`none` when the characters are not such a literal. -/
def parseUnsignedDecimal (cs : List Char) : Option ℚ :=
  if cs.contains '.' then
    let ip := cs.takeWhile (fun c => !(c == '.'))
    let rest := cs.dropWhile (fun c => !(c == '.'))
    let fp := rest.drop 1
    if fp.contains '.' then none
    else if ip.all Char.isDigit && fp.all Char.isDigit && !(ip.isEmpty && fp.isEmpty) then
      some ((digitsVal ip : ℚ) + (digitsVal fp : ℚ) / ((10 : ℚ) ^ fp.length))
    else none
  else
    if !cs.isEmpty && cs.all Char.isDigit then some ((digitsVal cs : ℚ)) else none

/-- Model of `Number(s)` on an unsigned (sign already stripped) string:
`"Infinity"`, or a decimal literal, otherwise `NaN`. -/
def jsNumUnsigned (cs : List Char) : JSNum :=
  if cs = ['I', 'n', 'f', 'i', 'n', 'i', 't', 'y'] then .posInf
  else
    match parseUnsignedDecimal cs with
    | some q => .finite q
    | none => .nan

/-- Unary minus on the `JSNum` model. -/
def jsNegate : JSNum → JSNum
  | .finite q => .finite (-q)
  | .posInf => .negInf
  | .negInf => .posInf
  | .nan => .nan

/-- Model of the JavaScript `Number(string)` conversion on an
already-trimmed character list: empty string is `0`, an optional leading sign
is applied to the unsigned parse. -/
def jsNumOfChars (cs : List Char) : JSNum :=
  match cs with
  | [] => .finite 0
  | c :: rest =>
    if c = '+' then jsNumUnsigned rest
    else if c = '-' then jsNegate (jsNumUnsigned rest)
    else jsNumUnsigned (c :: rest)

/-- Model of `String.prototype.trim` on a character list: drop whitespace
from both ends. -/
def trimJS (cs : List Char) : List Char :=
  ((cs.dropWhile Char.isWhitespace).reverse.dropWhile Char.isWhitespace).reverse

/-- The string preprocessing done by `cleanMetricValue` before `Number(...)`:
`value.replace(/,/g, "").trim()`. -/
def commaStripTrim (s : String) : List Char :=
  trimJS ((s.toList).filter (fun c => !(c == ',')))

/-- Model of `cleanMetricValue` (scoringUtils.ts lines 55-69).
`null`/`undefined`/`""` give `0`; a non-`NaN` number is returned as is (a
`NaN` number falls through every branch to the final `return 0`); a string is
comma-stripped, trimmed, and converted with `Number`, with `NaN` and the
empty remainder mapped to `0`; every other type gives `0`. -/
def cleanMetricValue (value : RawValue) : JSNum :=
  if value = .null ∨ value = .undefined ∨ value = .str "" then .finite 0
  else
    match value with
    | .num n => if n = .nan then .finite 0 else n
    | .str s =>
      let cleanedString := commaStripTrim s
      if cleanedString = [] then .finite 0
      else
        match jsNumOfChars cleanedString with
        | .nan => .finite 0
        | .finite q => .finite q
        | .posInf => .posInf
        | .negInf => .negInf
    | _ => .finite 0

/-- Embedding of the cleaner's output into the exact-arithmetic pipeline
model: finite JS numbers are their rational value; the non-finite values are
collapsed to `0`.  In the source, `±Infinity` flows on into scoring (see
`cleanMetricValue_infinity_passthrough`) and can turn a composite score into
`NaN`, which `ℚ` cannot represent; therefore every pipeline theorem whose
truth depends on the numeric values of the metrics (as opposed to the
structure and order of the output) carries a `FiniteMetrics` hypothesis
restricting it to inputs on which this embedding is faithful. -/
def toQ : JSNum → ℚ
  | .finite q => q
  | _ => 0

/-- The metric cleaner as used by the `ℚ`-valued pipeline model. -/
def cleanMetricValueQ (value : RawValue) : ℚ :=
  toQ (cleanMetricValue value)

/-- The four engagement metrics (`MetricKey` in the source). -/
inductive MetricKey where
  | views
  | reach
  | interactions
  | link_clicks
deriving DecidableEq

/-- `metricKeys` constant of the source (scoringUtils.ts lines 48-53). -/
def metricKeys : List MetricKey :=
  [.views, .reach, .interactions, .link_clicks]

/-- `PostDataForScoring` (scoringUtils.ts lines 3-14): identity and metadata
fields plus the four raw metric fields, each of which may be absent, `null`,
a number, or a string. -/
structure PostDataForScoring where
  post_id : String
  platform : String
  publish_time : String
  permalink : Option String
  caption : Option String
  image_url : Option String
  views : RawValue
  reach : RawValue
  interactions : RawValue
  link_clicks : RawValue
deriving DecidableEq, Inhabited

/-- `CleanedPost` (scoringUtils.ts lines 71-82): the same fields with all
four metrics coerced to numbers. -/
structure CleanedPost where
  post_id : String
  platform : String
  publish_time : String
  permalink : Option String
  caption : Option String
  image_url : Option String
  views : ℚ
  reach : ℚ
  interactions : ℚ
  link_clicks : ℚ
deriving DecidableEq, Inhabited

/-- `cleanPostMetrics` (scoringUtils.ts lines 84-97). -/
def cleanPostMetrics (post : PostDataForScoring) : CleanedPost :=
  { post_id := post.post_id
    platform := post.platform
    publish_time := post.publish_time
    permalink := post.permalink
    caption := post.caption
    image_url := post.image_url
    views := cleanMetricValueQ post.views
    reach := cleanMetricValueQ post.reach
    interactions := cleanMetricValueQ post.interactions
    link_clicks := cleanMetricValueQ post.link_clicks }

/-- The inputs on which the `ℚ` pipeline model is faithful to the source: a
post all four of whose raw metric values clean to finite numbers.  On any
other post the source propagates `±Infinity` into scoring (where it can
produce `NaN` composite scores), which `toQ` instead maps to `0`. -/
def FiniteMetrics (post : PostDataForScoring) : Prop :=
  (cleanMetricValue post.views).isFinite = true ∧
  (cleanMetricValue post.reach).isFinite = true ∧
  (cleanMetricValue post.interactions).isFinite = true ∧
  (cleanMetricValue post.link_clicks).isFinite = true

/-- The metric field selected by a `MetricKey` (the source's `p[key]`). -/
def getMetric (p : CleanedPost) : MetricKey → ℚ
  | .views => p.views
  | .reach => p.reach
  | .interactions => p.interactions
  | .link_clicks => p.link_clicks

/-- One `{ min, max }` entry of the source's `MetricMinMax` object. -/
structure MinMaxPair where
  min : ℚ
  max : ℚ
deriving DecidableEq

/-- `MetricMinMax` (scoringUtils.ts lines 16-18): an object with an optional
`{ min, max }` entry per metric key, modelled as a function into `Option`. -/
def MetricMinMax : Type :=
  MetricKey → Option MinMaxPair

/-- `MetricWeights` (scoringUtils.ts lines 20-22): an optional weight per
metric key. -/
def MetricWeights : Type :=
  MetricKey → Option ℚ

/-- `calculateMinMaxValues` (scoringUtils.ts lines 99-117).  An empty input
returns the empty object.  Otherwise every key is assigned an entry; the
source's `typeof v === "number"` filter keeps every element here because
`CleanedPost` metrics are numbers, so the `values.length > 0` test is the
non-emptiness of the post list, and `Math.min(...values)` /
`Math.max(...values)` are folds over the non-empty value list. -/
def calculateMinMaxValues (cleanedPosts : List CleanedPost) : MetricMinMax :=
  if cleanedPosts.length = 0 then fun _ => none
  else fun key =>
    match cleanedPosts.map (fun p => getMetric p key) with
    | [] => some { min := 0, max := 0 }
    | v :: vs => some { min := vs.foldl Min.min v, max := vs.foldl Max.max v }

/-- `normalizeValue` (scoringUtils.ts lines 119-123): `0` when `max === min`,
otherwise clamp into `[min, max]` and rescale. -/
def normalizeValue (value min max : ℚ) : ℚ :=
  if max = min then 0
  else (Max.max min (Min.min value max) - min) / (max - min)

/-- The effective weight of a key: `weights[key] ?? 0`. -/
def weightOf (weights : MetricWeights) (key : MetricKey) : ℚ :=
  (weights key).getD 0

/-- The contribution of one metric key to `compositeScore` in
`calculatePostScore`: `normalized * weight` when the key has a baseline entry
and a positive weight, `0` otherwise. -/
def scoreTerm (post : CleanedPost) (minMaxValues : MetricMinMax) (weights : MetricWeights)
    (key : MetricKey) : ℚ :=
  match minMaxValues key with
  | some metricMinMax =>
    if 0 < weightOf weights key then
      normalizeValue (getMetric post key) metricMinMax.min metricMinMax.max *
        weightOf weights key
    else 0
  | none => 0

/-- The normalized value recorded for one metric key in `calculatePostScore`:
the default `0` is kept when the key has no baseline entry or a non-positive
weight. -/
def normFor (post : CleanedPost) (minMaxValues : MetricMinMax) (weights : MetricWeights)
    (key : MetricKey) : ℚ :=
  match minMaxValues key with
  | some metricMinMax =>
    if 0 < weightOf weights key then
      normalizeValue (getMetric post key) metricMinMax.min metricMinMax.max
    else 0
  | none => 0

/-- `IntermediateScoredPost` (scoringUtils.ts lines 126-132): the cleaned
post (spread into the record in the source, nested here) together with the
four normalized values and the composite score. -/
structure IntermediateScoredPost where
  post : CleanedPost
  views_norm : ℚ
  reach_norm : ℚ
  interactions_norm : ℚ
  link_clicks_norm : ℚ
  composite_score : ℚ
deriving DecidableEq, Inhabited

/-- `calculatePostScore` (scoringUtils.ts lines 134-165): the loop over
`metricKeys` accumulates `compositeScore` and records the normalized values;
the final score is the accumulated sum scaled by `100`. -/
def calculatePostScore (post : CleanedPost) (minMaxValues : MetricMinMax)
    (weights : MetricWeights) : IntermediateScoredPost :=
  { post := post
    views_norm := normFor post minMaxValues weights .views
    reach_norm := normFor post minMaxValues weights .reach
    interactions_norm := normFor post minMaxValues weights .interactions
    link_clicks_norm := normFor post minMaxValues weights .link_clicks
    composite_score :=
      (metricKeys.foldl (fun acc key => acc + scoreTerm post minMaxValues weights key) 0) * 100 }

/-- The result type of `rankPosts`: the input record (`T` in the source's
generic signature) annotated with `rank_within_batch`. -/
structure Ranked (T : Type) where
  val : T
  rank_within_batch : ℕ
deriving DecidableEq, Inhabited

/-- The ranking loop of `rankPosts` (scoringUtils.ts lines 174-186), with the
mutable `rank`, `count` and `lastScore` as explicit parameters.  `lastScore`
is initialised to `-Infinity` in the source; that sentinel compares unequal
to every score, which `Option.none` models exactly. -/
def assignRanks {T : Type} (score : T → ℚ) : List T → ℕ → ℕ → Option ℚ → List (Ranked T)
  | [], _, _, _ => []
  | p :: ps, rank, count, lastScore =>
    if some (score p) = lastScore then
      { val := p, rank_within_batch := rank } :: assignRanks score ps rank (count + 1) lastScore
    else
      { val := p, rank_within_batch := count + 1 } ::
        assignRanks score ps (count + 1) (count + 1) (some (score p))

/-- `rankPosts` (scoringUtils.ts lines 168-188): stable sort descending by
`composite_score` (the `score` projection stands for the source's structural
`composite_score` bound on `T`), then the ranking loop. -/
def rankPosts {T : Type} (score : T → ℚ) (posts : List T) : List (Ranked T) :=
  assignRanks score (List.insertionSort (fun a b => score b ≤ score a) posts) 1 0 none

/-- `processAndScoreBatch` (scoringUtils.ts lines 191-242): clean both
inputs, build the min/max context from their concatenation, score only the
new posts against it, and rank the scored new posts. -/
def processAndScoreBatch (newPostsRaw historicalPostsRaw : List PostDataForScoring)
    (weights : MetricWeights) : List (Ranked IntermediateScoredPost) :=
  let cleanedNewPosts := newPostsRaw.map cleanPostMetrics
  let cleanedHistoricalPosts := historicalPostsRaw.map cleanPostMetrics
  let allPostsForMinMaxContext := cleanedNewPosts ++ cleanedHistoricalPosts
  let minMaxValues := calculateMinMaxValues allPostsForMinMaxContext
  let scoredNewPostsIntermediate :=
    cleanedNewPosts.map (fun aCleanedNewPost => calculatePostScore aCleanedNewPost minMaxValues weights)
  rankPosts (fun sp => sp.composite_score) scoredNewPostsIntermediate

example : (rankPosts (fun q : ℚ => q) [50, 50, 30]).map (fun r => r.rank_within_batch)
    = [1, 1, 3] := by decide

example : cleanMetricValue (.str "1,234") = .finite 1234 := by decide

/-! ### Helper lemmas about folds computing minima and maxima -/

theorem foldl_min_le_init (vs : List ℚ) (b : ℚ) : vs.foldl Min.min b ≤ b := by
  induction vs generalizing b with
  | nil => exact le_refl b
  | cons w vs ih => exact le_trans (ih (Min.min b w)) (min_le_left b w)

theorem foldl_min_le_of_mem (vs : List ℚ) (b x : ℚ) (hx : x ∈ b :: vs) :
    vs.foldl Min.min b ≤ x := by
  induction vs generalizing b with
  | nil =>
    rcases List.mem_singleton.mp hx with rfl
    exact le_refl x
  | cons w vs ih =>
    rcases List.mem_cons.mp hx with rfl | hx2
    · exact le_trans (foldl_min_le_init vs (Min.min x w)) (min_le_left x w)
    · rcases List.mem_cons.mp hx2 with rfl | hx3
      · exact le_trans (foldl_min_le_init vs (Min.min b x)) (min_le_right b x)
      · exact ih (Min.min b w) (List.mem_cons_of_mem _ hx3)

theorem foldl_min_mem (vs : List ℚ) (b : ℚ) : vs.foldl Min.min b ∈ b :: vs := by
  induction vs generalizing b with
  | nil => exact List.mem_singleton.mpr rfl
  | cons w vs ih =>
    have h := ih (Min.min b w)
    rcases List.mem_cons.mp h with he | hm
    · rw [List.foldl_cons, he]
      rcases min_choice b w with h1 | h1 <;> rw [h1]
      · exact List.mem_cons_self b _
      · exact List.mem_cons_of_mem _ (List.mem_cons_self w _)
    · exact List.mem_cons_of_mem _ (List.mem_cons_of_mem _ hm)

theorem le_foldl_max_init (vs : List ℚ) (b : ℚ) : b ≤ vs.foldl Max.max b := by
  induction vs generalizing b with
  | nil => exact le_refl b
  | cons w vs ih => exact le_trans (le_max_left b w) (ih (Max.max b w))

theorem le_foldl_max_of_mem (vs : List ℚ) (b x : ℚ) (hx : x ∈ b :: vs) :
    x ≤ vs.foldl Max.max b := by
  induction vs generalizing b with
  | nil =>
    rcases List.mem_singleton.mp hx with rfl
    exact le_refl x
  | cons w vs ih =>
    rcases List.mem_cons.mp hx with rfl | hx2
    · exact le_trans (le_max_left x w) (le_foldl_max_init vs (Max.max x w))
    · rcases List.mem_cons.mp hx2 with rfl | hx3
      · exact le_trans (le_max_right b x) (le_foldl_max_init vs (Max.max b x))
      · exact ih (Max.max b w) (List.mem_cons_of_mem _ hx3)

theorem foldl_max_mem (vs : List ℚ) (b : ℚ) : vs.foldl Max.max b ∈ b :: vs := by
  induction vs generalizing b with
  | nil => exact List.mem_singleton.mpr rfl
  | cons w vs ih =>
    have h := ih (Max.max b w)
    rcases List.mem_cons.mp h with he | hm
    · rw [List.foldl_cons, he]
      rcases max_choice b w with h1 | h1 <;> rw [h1]
      · exact List.mem_cons_self b _
      · exact List.mem_cons_of_mem _ (List.mem_cons_self w _)
    · exact List.mem_cons_of_mem _ (List.mem_cons_of_mem _ hm)

/-! ### Characterization of `calculateMinMaxValues` -/

/-- On a non-empty post list, `calculateMinMaxValues` defines an entry for
every key whose `min` (resp. `max`) is a lower (resp. upper) bound of the
cleaned values and is attained by one of them. -/
theorem calculateMinMaxValues_spec (cleanedPosts : List CleanedPost)
    (hne : cleanedPosts ≠ []) (key : MetricKey) :
    ∃ mm : MinMaxPair, calculateMinMaxValues cleanedPosts key = some mm ∧
      (∀ p ∈ cleanedPosts, mm.min ≤ getMetric p key ∧ getMetric p key ≤ mm.max) ∧
      (∃ p ∈ cleanedPosts, getMetric p key = mm.min) ∧
      (∃ p ∈ cleanedPosts, getMetric p key = mm.max) := by
  match cleanedPosts, hne with
  | q :: qs, _ =>
    refine ⟨{ min := (qs.map (fun p => getMetric p key)).foldl Min.min (getMetric q key),
              max := (qs.map (fun p => getMetric p key)).foldl Max.max (getMetric q key) }, ?_, ?_, ?_, ?_⟩
    · simp [calculateMinMaxValues]
    · intro p hp
      have hmem : getMetric p key ∈ (q :: qs).map (fun p => getMetric p key) :=
        List.mem_map_of_mem _ hp
      simp only [List.map_cons] at hmem
      exact ⟨foldl_min_le_of_mem _ _ _ hmem, le_foldl_max_of_mem _ _ _ hmem⟩
    · have h := foldl_min_mem (qs.map (fun p => getMetric p key)) (getMetric q key)
      rcases List.mem_cons.mp h with he | hm
      · exact ⟨q, List.mem_cons_self q qs, he.symm⟩
      · rcases List.mem_map.mp hm with ⟨p, hp, hpe⟩
        exact ⟨p, List.mem_cons_of_mem _ hp, hpe⟩
    · have h := foldl_max_mem (qs.map (fun p => getMetric p key)) (getMetric q key)
      rcases List.mem_cons.mp h with he | hm
      · exact ⟨q, List.mem_cons_self q qs, he.symm⟩
      · rcases List.mem_map.mp hm with ⟨p, hp, hpe⟩
        exact ⟨p, List.mem_cons_of_mem _ hp, hpe⟩

/-- Every entry `calculateMinMaxValues` produces has `min ≤ max` (also on the
degenerate `{min: 0, max: 0}` branch). -/
theorem calculateMinMaxValues_min_le_max (cleanedPosts : List CleanedPost) (key : MetricKey)
    (mm : MinMaxPair) (hmm : calculateMinMaxValues cleanedPosts key = some mm) :
    mm.min ≤ mm.max := by
  by_cases h : cleanedPosts.length = 0
  · simp [calculateMinMaxValues, h] at hmm
  · have hne : cleanedPosts ≠ [] := by
      intro he
      rw [he] at h
      exact h rfl
    rcases calculateMinMaxValues_spec cleanedPosts hne key with ⟨mm2, he, hb, _, _⟩
    rw [hmm] at he
    rcases Option.some_injective _ he with rfl
    match cleanedPosts, hne with
    | q :: qs, _ =>
      rcases hb q (List.mem_cons_self q qs) with ⟨h1, h2⟩
      exact le_trans h1 h2

/-! ### Bounds for `normalizeValue` -/

theorem normalizeValue_nonneg (value lo hi : ℚ) (hle : lo ≤ hi) :
    0 ≤ normalizeValue value lo hi := by
  rcases eq_or_lt_of_le hle with rfl | hlt
  · simp [normalizeValue]
  · rw [normalizeValue, if_neg (ne_of_gt hlt)]
    apply div_nonneg
    · simp [le_max_iff]
    · linarith

theorem normalizeValue_le_one (value lo hi : ℚ) (hle : lo ≤ hi) :
    normalizeValue value lo hi ≤ 1 := by
  rcases eq_or_lt_of_le hle with rfl | hlt
  · simp [normalizeValue]
  · rw [normalizeValue, if_neg (ne_of_gt hlt)]
    rw [div_le_one (by linarith)]
    have h1 : Min.min value hi ≤ hi := min_le_right value hi
    have h2 : Max.max lo (Min.min value hi) ≤ hi := max_le (le_of_lt hlt) h1
    linarith
example : cleanMetricValue (.str "abc") = .finite 0 := by decide
example : cleanMetricValue (.str "  12.5 ") = .finite (25 / 2) := by
  have h : commaStripTrim "  12.5 " = ['1', '2', '.', '5'] := by decide
  have h1 : digitsVal ['1', '2'] = 12 := by decide
  have h2 : digitsVal ['5'] = 5 := by decide
  simp +decide only [cleanMetricValue, h, jsNumOfChars, jsNumUnsigned, parseUnsignedDecimal,
    List.takeWhile_cons, List.takeWhile_nil, List.dropWhile_cons, List.dropWhile_nil,
    List.tail_cons, List.length_cons, List.length_nil]
  norm_num [h1, h2]
example : cleanMetricValue (.str "Infinity") = .posInf := by decide
example : cleanMetricValue (.str "-3") = .finite (-3) := by decide
example : cleanMetricValue (.num .posInf) = .posInf := by decide
example : cleanMetricValue (.num .nan) = .finite 0 := by decide

/-! ### Lemmas about the ranking loop -/

theorem assignRanks_map_val {T : Type} (score : T → ℚ) (ps : List T) :
    ∀ (rank count : ℕ) (last : Option ℚ),
      (assignRanks score ps rank count last).map Ranked.val = ps := by
  induction ps with
  | nil => intro rank count last; rfl
  | cons p ps ih =>
    intro rank count last
    by_cases h : some (score p) = last
    · simp [assignRanks, h, ih]
    · simp [assignRanks, h, ih]

theorem assignRanks_cons {T : Type} (score : T → ℚ) (p : T) (ps : List T)
    (rank count : ℕ) (last : Option ℚ) :
    assignRanks score (p :: ps) rank count last =
      { val := p,
        rank_within_batch := if some (score p) = last then rank else count + 1 } ::
        assignRanks score ps (if some (score p) = last then rank else count + 1) (count + 1)
          (some (score p)) := by
  by_cases h : some (score p) = last
  · simp [assignRanks, h]
  · simp [assignRanks, h]

theorem assignRanks_head {T : Type} (score : T → ℚ) (p : T) (ps : List T)
    (rank count : ℕ) (last : Option ℚ) :
    (assignRanks score (p :: ps) rank count last)[0]? =
      some { val := p,
             rank_within_batch := if some (score p) = last then rank else count + 1 } := by
  rw [assignRanks_cons]
  simp

theorem assignRanks_adjacent {T : Type} (score : T → ℚ) (ps : List T) :
    ∀ (rank count : ℕ) (last : Option ℚ) (i : ℕ) (a b : Ranked T),
      (assignRanks score ps rank count last)[i]? = some a →
      (assignRanks score ps rank count last)[i + 1]? = some b →
      (score b.val = score a.val → b.rank_within_batch = a.rank_within_batch) ∧
      (score b.val ≠ score a.val → b.rank_within_batch = count + i + 2) := by
  induction ps with
  | nil =>
    intro rank count last i a b ha hb
    simp [assignRanks] at ha
  | cons p ps ih =>
    intro rank count last i a b ha hb
    rw [assignRanks_cons] at ha hb
    cases i with
    | zero =>
      simp only [List.getElem?_cons_zero, Option.some.injEq] at ha
      simp only [List.getElem?_cons_succ] at hb
      cases ps with
      | nil => simp [assignRanks] at hb
      | cons q qs =>
        rw [assignRanks_head] at hb
        have hb2 := Option.some_inj.mp hb
        subst hb2
        subst ha
        constructor
        · intro hsc
          simp only [Ranked.val] at hsc ⊢
          simp [hsc]
        · intro hsc
          simp only [Ranked.val] at hsc ⊢
          have hne : ¬ (some (score q) = some (score p)) := by
            intro hcon
            exact hsc (Option.some_inj.mp hcon)
          simp [hne]
    | succ j =>
      simp only [List.getElem?_cons_succ] at ha hb
      have hres := ih _ (count + 1) (some (score p)) j a b ha hb
      refine ⟨hres.1, fun hne => ?_⟩
      rw [hres.2 hne]
      omega

theorem rankPosts_map_val {T : Type} (score : T → ℚ) (posts : List T) :
    (rankPosts score posts).map Ranked.val =
      List.insertionSort (fun a b => score b ≤ score a) posts :=
  assignRanks_map_val score _ 1 0 none

theorem rankPosts_perm {T : Type} (score : T → ℚ) (posts : List T) :
    ((rankPosts score posts).map Ranked.val).Perm posts := by
  rw [rankPosts_map_val]
  exact List.perm_insertionSort _ posts

theorem rankPosts_sorted {T : Type} (score : T → ℚ) (posts : List T) :
    (rankPosts score posts).Pairwise (fun a b => score b.val ≤ score a.val) := by
  haveI : IsTotal T (fun a b => score b ≤ score a) := ⟨fun a b => le_total (score b) (score a)⟩
  haveI : IsTrans T (fun a b => score b ≤ score a) :=
    ⟨fun a b c h1 h2 => le_trans h2 h1⟩
  have hs := List.sorted_insertionSort (fun a b => score b ≤ score a) posts
  rw [← rankPosts_map_val score posts] at hs
  exact List.pairwise_map.mp hs

theorem rankPosts_first {T : Type} (score : T → ℚ) (posts : List T) (a : Ranked T)
    (ha : (rankPosts score posts)[0]? = some a) : a.rank_within_batch = 1 := by
  unfold rankPosts at ha
  cases h : List.insertionSort (fun a b => score b ≤ score a) posts with
  | nil =>
    rw [h] at ha
    simp [assignRanks] at ha
  | cons q qs =>
    rw [h, assignRanks_head] at ha
    have ha2 := Option.some_inj.mp ha
    subst ha2
    simp

theorem rankPosts_adjacent {T : Type} (score : T → ℚ) (posts : List T) (i : ℕ) (a b : Ranked T)
    (ha : (rankPosts score posts)[i]? = some a)
    (hb : (rankPosts score posts)[i + 1]? = some b) :
    (score b.val = score a.val → b.rank_within_batch = a.rank_within_batch) ∧
    (score b.val ≠ score a.val → b.rank_within_batch = i + 2) := by
  have hres := assignRanks_adjacent score _ 1 0 none i a b ha hb
  simpa using hres

/-! ### Further structural lemmas about the pipeline -/

theorem calculatePostScore_post (post : CleanedPost) (minMaxValues : MetricMinMax)
    (weights : MetricWeights) : (calculatePostScore post minMaxValues weights).post = post :=
  rfl

theorem rankPosts_length {T : Type} (score : T → ℚ) (posts : List T) :
    (rankPosts score posts).length = posts.length := by
  have h := (rankPosts_perm score posts).length_eq
  rwa [List.length_map] at h

/-! ### Claim theorems -/

/-- Claim C1: for every list of posts carrying a `composite_score`,
`rankPosts` returns a permutation of the input sorted descending by score,
gives the first post rank `1`, gives each subsequent post the rank of its
predecessor when the scores are exactly equal and its 1-based position
otherwise; in particular scores `[50, 50, 30]` get ranks `[1, 1, 3]`. -/
theorem rankPosts_sorts_and_ranks {T : Type} (score : T → ℚ) (posts : List T) :
    ((rankPosts score posts).map Ranked.val).Perm posts ∧
    (rankPosts score posts).Pairwise (fun a b => score b.val ≤ score a.val) ∧
    (∀ a : Ranked T, (rankPosts score posts)[0]? = some a → a.rank_within_batch = 1) ∧
    (∀ (i : ℕ) (a b : Ranked T),
      (rankPosts score posts)[i]? = some a →
      (rankPosts score posts)[i + 1]? = some b →
      (score b.val = score a.val → b.rank_within_batch = a.rank_within_batch) ∧
      (score b.val ≠ score a.val → b.rank_within_batch = i + 2)) ∧
    (rankPosts (fun q : ℚ => q) [50, 50, 30]).map Ranked.rank_within_batch = [1, 1, 3] :=
  ⟨rankPosts_perm score posts, rankPosts_sorted score posts,
    fun a ha => rankPosts_first score posts a ha,
    fun i a b ha hb => rankPosts_adjacent score posts i a b ha hb,
    by decide⟩

/-- Witness for C1 at the concrete batch `[50, 50, 30]`: the first post has
rank `1`, and the post at 1-based position `3` (score `30`, unequal to its
predecessor's `50`) has rank `3`. -/
theorem rankPosts_sorts_and_ranks_witness :
    ((rankPosts (fun q : ℚ => q) [50, 50, 30]).map Ranked.val).Perm [50, 50, 30] ∧
    Ranked.rank_within_batch { val := (50 : ℚ), rank_within_batch := 1 } = 1 ∧
    Ranked.rank_within_batch { val := (30 : ℚ), rank_within_batch := 3 } = 1 + 2 := by
  have h := rankPosts_sorts_and_ranks (fun q : ℚ => q) [50, 50, 30]
  refine ⟨h.1, h.2.2.1 _ (by decide), ?_⟩
  exact (h.2.2.2.1 1 { val := (50 : ℚ), rank_within_batch := 1 }
    { val := (30 : ℚ), rank_within_batch := 3 } (by decide) (by decide)).2 (by decide)

/-- Claim C2: `processAndScoreBatch` is deterministic — two calls on equal
inputs return equal outputs, in particular equal `composite_score` and
`rank_within_batch` sequences.  (The embedding is a pure function: the source
has no randomness or wall-clock dependence, logging aside.) -/
theorem processAndScoreBatch_deterministic (newPosts1 hist1 : List PostDataForScoring)
    (weights1 : MetricWeights) (newPosts2 hist2 : List PostDataForScoring)
    (weights2 : MetricWeights) (hn : newPosts1 = newPosts2) (hh : hist1 = hist2)
    (hw : weights1 = weights2) :
    processAndScoreBatch newPosts1 hist1 weights1 = processAndScoreBatch newPosts2 hist2 weights2 ∧
    (processAndScoreBatch newPosts1 hist1 weights1).map (fun sp => sp.val.composite_score) =
      (processAndScoreBatch newPosts2 hist2 weights2).map (fun sp => sp.val.composite_score) ∧
    (processAndScoreBatch newPosts1 hist1 weights1).map (fun sp => sp.rank_within_batch) =
      (processAndScoreBatch newPosts2 hist2 weights2).map (fun sp => sp.rank_within_batch) := by
  subst hn
  subst hh
  subst hw
  exact ⟨rfl, rfl, rfl⟩

/-- Witness for C2 at concrete equal inputs. -/
theorem processAndScoreBatch_deterministic_witness :
    processAndScoreBatch [] [] (fun _ => none) = processAndScoreBatch [] [] (fun _ => none) ∧
    (processAndScoreBatch [] [] (fun _ => none)).map (fun sp => sp.val.composite_score) =
      (processAndScoreBatch [] [] (fun _ => none)).map (fun sp => sp.val.composite_score) ∧
    (processAndScoreBatch [] [] (fun _ => none)).map (fun sp => sp.rank_within_batch) =
      (processAndScoreBatch [] [] (fun _ => none)).map (fun sp => sp.rank_within_batch) :=
  processAndScoreBatch_deterministic [] [] (fun _ => none) [] [] (fun _ => none) rfl rfl rfl

/-- Claim C3: the output of `processAndScoreBatch` is, up to the ranking
permutation, exactly the cleaned new posts — one `ScoredPost` per new post,
preserving its identity fields and cleaned metrics, and no record derived
from a historical-only post.  Historical posts enter only the min/max
context. -/
theorem processAndScoreBatch_scores_only_new (newPostsRaw historicalPostsRaw : List PostDataForScoring)
    (weights : MetricWeights) :
    ((processAndScoreBatch newPostsRaw historicalPostsRaw weights).map
        (fun sp => sp.val.post)).Perm (newPostsRaw.map cleanPostMetrics) ∧
    (processAndScoreBatch newPostsRaw historicalPostsRaw weights).length =
      newPostsRaw.length := by
  constructor
  · have hperm := rankPosts_perm (fun sp => sp.composite_score)
      ((newPostsRaw.map cleanPostMetrics).map
        (fun aCleanedNewPost => calculatePostScore aCleanedNewPost
          (calculateMinMaxValues
            (newPostsRaw.map cleanPostMetrics ++ historicalPostsRaw.map cleanPostMetrics))
          weights))
    have hperm2 := hperm.map IntermediateScoredPost.post
    rw [List.map_map, List.map_map] at hperm2
    simpa [processAndScoreBatch, Function.comp_def, calculatePostScore_post] using hperm2
  · rw [show processAndScoreBatch newPostsRaw historicalPostsRaw weights =
      rankPosts (fun sp => sp.composite_score)
        ((newPostsRaw.map cleanPostMetrics).map
          (fun aCleanedNewPost => calculatePostScore aCleanedNewPost
            (calculateMinMaxValues
              (newPostsRaw.map cleanPostMetrics ++ historicalPostsRaw.map cleanPostMetrics))
            weights)) from rfl]
    rw [rankPosts_length, List.length_map, List.length_map]

/-- Claim C7: with `max > min`, `normalizeValue` is clamped into `[0, 1]`
and maps the endpoints to `0` and `1`; with `max == min` it is constantly
`0`, so no division by zero occurs. -/
theorem normalizeValue_bounded (value lo hi : ℚ) :
    (lo < hi →
      0 ≤ normalizeValue value lo hi ∧ normalizeValue value lo hi ≤ 1 ∧
      normalizeValue lo lo hi = 0 ∧ normalizeValue hi lo hi = 1) ∧
    (hi = lo → normalizeValue value lo hi = 0) := by
  constructor
  · intro hlt
    refine ⟨normalizeValue_nonneg value lo hi (le_of_lt hlt),
      normalizeValue_le_one value lo hi (le_of_lt hlt), ?_, ?_⟩
    · rw [normalizeValue, if_neg (ne_of_gt hlt)]
      rw [min_eq_left (le_of_lt hlt), max_self]
      simp
    · rw [normalizeValue, if_neg (ne_of_gt hlt)]
      rw [min_self, max_eq_right (le_of_lt hlt)]
      exact div_self (by linarith)
  · intro he
    simp [normalizeValue, he]

/-- Witness for C7 at `min = 0 < max = 10`, `value = 5`, and at the
degenerate baseline `min = max = 3`. -/
theorem normalizeValue_bounded_witness :
    (0 ≤ normalizeValue 5 0 10 ∧ normalizeValue 5 0 10 ≤ 1 ∧
      normalizeValue 0 0 10 = 0 ∧ normalizeValue 10 0 10 = 1) ∧
    normalizeValue 5 3 3 = 0 :=
  ⟨(normalizeValue_bounded 5 0 10).1 (by norm_num), (normalizeValue_bounded 5 3 3).2 rfl⟩

/-- Claim C10: on a non-empty cleaned-post list, `calculateMinMaxValues`
defines an entry for every metric key, with `min ≤ max`, `min` the least and
`max` the greatest cleaned value of that metric; hence the missing-baseline
guard in `calculatePostScore` can only fire on an empty scoring context. -/
theorem calculateMinMaxValues_complete (cleanedPosts : List CleanedPost)
    (hne : cleanedPosts ≠ []) (key : MetricKey) :
    ∃ mm : MinMaxPair, calculateMinMaxValues cleanedPosts key = some mm ∧
      mm.min ≤ mm.max ∧
      (∀ p ∈ cleanedPosts, mm.min ≤ getMetric p key ∧ getMetric p key ≤ mm.max) ∧
      (∃ p ∈ cleanedPosts, getMetric p key = mm.min) ∧
      (∃ p ∈ cleanedPosts, getMetric p key = mm.max) := by
  rcases calculateMinMaxValues_spec cleanedPosts hne key with ⟨mm, he, hb, hmin, hmax⟩
  exact ⟨mm, he, calculateMinMaxValues_min_le_max cleanedPosts key mm he, hb, hmin, hmax⟩

/-- A concrete single-post context for the C10 witness (reach `500`, the
spec's single-element-baseline scenario). -/
def c10post : CleanedPost :=
  { post_id := "p1", platform := "Instagram", publish_time := "2024-02-02T00:00:00Z",
    permalink := none, caption := none, image_url := none,
    views := 120, reach := 500, interactions := 40, link_clicks := 7 }

/-- Witness for C10 on the single-post context `[c10post]` at key `reach`. -/
theorem calculateMinMaxValues_complete_witness :
    ∃ mm : MinMaxPair, calculateMinMaxValues [c10post] MetricKey.reach = some mm ∧
      mm.min ≤ mm.max ∧
      (∀ p ∈ [c10post], mm.min ≤ getMetric p MetricKey.reach ∧
        getMetric p MetricKey.reach ≤ mm.max) ∧
      (∃ p ∈ [c10post], getMetric p MetricKey.reach = mm.min) ∧
      (∃ p ∈ [c10post], getMetric p MetricKey.reach = mm.max) :=
  calculateMinMaxValues_complete [c10post] (by decide) MetricKey.reach

/-! ### Lemmas about the metric cleaner -/

/-- The cleaner never returns `NaN`: every branch of the source either
returns a number that passed the `!isNaN` test, the result of a parse that
passed an `isNaN` test, or the literal `0`. -/
theorem cleanMetricValue_ne_nan (value : RawValue) : cleanMetricValue value ≠ .nan := by
  rcases value with _ | _ | n | s | _
  · decide
  · decide
  · rcases n with q | _ | _ | _ <;> simp [cleanMetricValue]
  · by_cases hs : s = ""
    · subst hs
      decide
    · simp only [cleanMetricValue]
      rw [if_neg (by simp [hs])]
      by_cases hcs : commaStripTrim s = []
      · simp [hcs]
      · rw [if_neg hcs]
        rcases hj : jsNumOfChars (commaStripTrim s) with q | _ | _ | _ <;> simp [hj]
  · decide

/-- A number that is not `NaN` passes the cleaner unchanged. -/
theorem cleanMetricValue_num (n : JSNum) (hn : n ≠ .nan) :
    cleanMetricValue (.num n) = n := by
  simp [cleanMetricValue, hn]

/-- Claim C6: the cleaner maps `null`/`undefined`/`""` to `0`, a non-`NaN`
number to itself, a string to the number that its comma-stripped trimmed form
converts to (`0` when the conversion is `NaN`), and any other type to `0`;
in particular `clean("1,234") = 1234` and `clean("abc") = 0`, and the result
is never `NaN`. -/
theorem cleanMetricValue_total :
    cleanMetricValue .null = .finite 0 ∧
    cleanMetricValue .undefined = .finite 0 ∧
    cleanMetricValue (.str "") = .finite 0 ∧
    (∀ q : ℚ, cleanMetricValue (.num (.finite q)) = .finite q) ∧
    (∀ (s : String) (n : JSNum), n ≠ .nan → commaStripTrim s ≠ [] →
      jsNumOfChars (commaStripTrim s) = n → cleanMetricValue (.str s) = n) ∧
    (∀ s : String, jsNumOfChars (commaStripTrim s) = .nan →
      cleanMetricValue (.str s) = .finite 0) ∧
    cleanMetricValue (.str "1,234") = .finite 1234 ∧
    cleanMetricValue (.str "abc") = .finite 0 ∧
    cleanMetricValue .other = .finite 0 ∧
    (∀ value : RawValue, cleanMetricValue value ≠ .nan) := by
  refine ⟨by decide, by decide, by decide, ?_, ?_, ?_, by decide, by decide, by decide,
    cleanMetricValue_ne_nan⟩
  · intro q
    simp [cleanMetricValue]
  · intro s n hn hcs hj
    have hs : s ≠ "" := by
      intro he
      subst he
      exact hcs (by decide)
    simp only [cleanMetricValue]
    rw [if_neg (by simp [hs])]
    rw [if_neg hcs]
    rcases n with q | _ | _ | _
    · simp [hj]
    · simp [hj]
    · simp [hj]
    · exact absurd rfl hn
  · intro s hj
    by_cases hs : s = ""
    · subst hs
      decide
    · simp only [cleanMetricValue]
      rw [if_neg (by simp [hs])]
      by_cases hcs : commaStripTrim s = []
      · simp [hcs]
      · rw [if_neg hcs]
        simp [hj]

/-- Witness for C6: the conditional string clauses discharged at the
concrete inputs `"12"` (which parses) and `"abc"` (which does not). -/
theorem cleanMetricValue_total_witness :
    cleanMetricValue (.str "12") = .finite 12 ∧
    cleanMetricValue (.str "abc") = .finite 0 := by
  constructor
  · exact cleanMetricValue_total.2.2.2.2.1 "12" (.finite 12) (by decide) (by decide) (by decide)
  · exact cleanMetricValue_total.2.2.2.2.2.1 "abc" (by decide)

/-- Claim C8: the cleaner is idempotent — a non-negative number is returned
unchanged, and re-cleaning any cleaned value returns it unchanged (the
cleaned value is a number and is never `NaN`, so the number branch returns it
as is). -/
theorem cleanMetricValue_idempotent :
    (∀ q : ℚ, 0 ≤ q → cleanMetricValue (.num (.finite q)) = .finite q) ∧
    (∀ value : RawValue,
      cleanMetricValue (.num (cleanMetricValue value)) = cleanMetricValue value) := by
  constructor
  · intro q hq
    simp [cleanMetricValue]
  · intro value
    exact cleanMetricValue_num (cleanMetricValue value) (cleanMetricValue_ne_nan value)

/-- Witness for C8 at the non-negative number `7` and the raw string
`"abc"`. -/
theorem cleanMetricValue_idempotent_witness :
    (0 : ℚ) ≤ 7 ∧ cleanMetricValue (.num (.finite 7)) = .finite 7 ∧
    cleanMetricValue (.num (cleanMetricValue (.str "abc"))) = cleanMetricValue (.str "abc") :=
  ⟨by norm_num, cleanMetricValue_idempotent.1 7 (by norm_num),
    cleanMetricValue_idempotent.2 (.str "abc")⟩

/-- The raw inputs on which the cleaner's output is non-finite: the numbers
`±Infinity`, and the strings whose comma-stripped trimmed form converts to
`±Infinity`. -/
def infiniteSource : RawValue → Bool
  | .num .posInf => true
  | .num .negInf => true
  | .str s =>
    jsNumOfChars (commaStripTrim s) == .posInf || jsNumOfChars (commaStripTrim s) == .negInf
  | _ => false

/-- Claim C9 counterexample: the raw value `Infinity` is a number and is not
`NaN`, so `cleanMetricValue` returns it unchanged — the result is not a
finite number, contrary to the claim that every raw value cleans to a finite
number. -/
theorem cleanMetricValue_infinity_passthrough :
    cleanMetricValue (.num .posInf) = .posInf ∧
    JSNum.isFinite (cleanMetricValue (.num .posInf)) = false := by
  decide

/-- Claim C9 as amended: the cleaner never returns `NaN`, and its result is
finite for every raw value except a non-finite number or a string converting
to `±Infinity`, which pass through as `±Infinity`. -/
theorem cleanMetricValue_finite_unless_infinite (value : RawValue) :
    cleanMetricValue value ≠ .nan ∧
    (JSNum.isFinite (cleanMetricValue value) = true ∨ infiniteSource value = true) := by
  refine ⟨cleanMetricValue_ne_nan value, ?_⟩
  rcases value with _ | _ | n | s | _
  · left; decide
  · left; decide
  · rcases n with q | _ | _ | _
    · left; simp [cleanMetricValue, JSNum.isFinite]
    · right; decide
    · right; decide
    · left; decide
  · by_cases hs : s = ""
    · subst hs; left; decide
    · by_cases hcs : commaStripTrim s = []
      · left
        simp only [cleanMetricValue]
        rw [if_neg (by simp [hs])]
        simp [hcs, JSNum.isFinite]
      · rcases hj : jsNumOfChars (commaStripTrim s) with q | _ | _ | _
        · left
          simp only [cleanMetricValue]
          rw [if_neg (by simp [hs])]
          rw [if_neg hcs]
          simp [hj, JSNum.isFinite]
        · right
          simp [infiniteSource, hj]
        · right
          simp [infiniteSource, hj]
        · left
          simp only [cleanMetricValue]
          rw [if_neg (by simp [hs])]
          rw [if_neg hcs]
          simp [hj, JSNum.isFinite]
  · left; decide

/-! ### Score bounds (claim C5) -/

/-- A number cleans to its own value in the `ℚ` model. -/
theorem cleanMetricValueQ_num (q : ℚ) : cleanMetricValueQ (.num (.finite q)) = q := by
  simp [cleanMetricValueQ, cleanMetricValue, toQ]

theorem scoreTerm_bounds (post : CleanedPost) (mmv : MetricMinMax) (weights : MetricWeights)
    (key : MetricKey) (hmm : ∀ mm : MinMaxPair, mmv key = some mm → mm.min ≤ mm.max)
    (hw0 : 0 ≤ weightOf weights key) :
    0 ≤ scoreTerm post mmv weights key ∧
      scoreTerm post mmv weights key ≤ weightOf weights key := by
  rcases hmk : mmv key with _ | mm
  · simp [scoreTerm, hmk, hw0]
  · have hle := hmm mm hmk
    by_cases hpos : 0 < weightOf weights key
    · constructor
      · simp only [scoreTerm, hmk, if_pos hpos]
        exact mul_nonneg (normalizeValue_nonneg _ _ _ hle) hw0
      · simp only [scoreTerm, hmk, if_pos hpos]
        exact mul_le_of_le_one_left hw0 (normalizeValue_le_one _ _ _ hle)
    · simp [scoreTerm, hmk, hpos, hw0]

theorem calculatePostScore_bounds (post : CleanedPost) (mmv : MetricMinMax)
    (weights : MetricWeights)
    (hmm : ∀ (key : MetricKey) (mm : MinMaxPair), mmv key = some mm → mm.min ≤ mm.max)
    (hw : ∀ key : MetricKey, 0 ≤ weightOf weights key ∧ weightOf weights key ≤ 1)
    (hsum : weightOf weights .views + weightOf weights .reach +
      weightOf weights .interactions + weightOf weights .link_clicks ≤ 1) :
    0 ≤ (calculatePostScore post mmv weights).composite_score ∧
      (calculatePostScore post mmv weights).composite_score ≤ 100 := by
  rcases scoreTerm_bounds post mmv weights .views (hmm .views) (hw .views).1
    with ⟨h1a, h1b⟩
  rcases scoreTerm_bounds post mmv weights .reach (hmm .reach) (hw .reach).1
    with ⟨h2a, h2b⟩
  rcases scoreTerm_bounds post mmv weights .interactions (hmm .interactions)
    (hw .interactions).1 with ⟨h3a, h3b⟩
  rcases scoreTerm_bounds post mmv weights .link_clicks (hmm .link_clicks)
    (hw .link_clicks).1 with ⟨h4a, h4b⟩
  simp only [calculatePostScore, metricKeys, List.foldl_cons, List.foldl_nil]
  constructor
  · linarith
  · linarith

/-- Claim C5 counterexample: with every weight equal to `1` (each within
`[0, 1]`, but summing to `4`), a two-post batch in which one post attains the
maximum of every metric produces composite scores `[400, 0]` — the claimed
`0..100` range is violated. -/
def allOneWeights : MetricWeights := fun _ => some 1

def c5lo : PostDataForScoring :=
  { post_id := "lo", platform := "Facebook", publish_time := "2024-03-01T00:00:00Z",
    permalink := none, caption := none, image_url := none,
    views := .num (.finite 0), reach := .num (.finite 0),
    interactions := .num (.finite 0), link_clicks := .num (.finite 0) }

def c5hi : PostDataForScoring :=
  { post_id := "hi", platform := "Facebook", publish_time := "2024-03-02T00:00:00Z",
    permalink := none, caption := none, image_url := none,
    views := .num (.finite 10), reach := .num (.finite 10),
    interactions := .num (.finite 10), link_clicks := .num (.finite 10) }

theorem processAndScoreBatch_score_above_100 :
    weightOf allOneWeights MetricKey.views = 1 ∧
    weightOf allOneWeights MetricKey.reach = 1 ∧
    weightOf allOneWeights MetricKey.interactions = 1 ∧
    weightOf allOneWeights MetricKey.link_clicks = 1 ∧
    (0 : ℚ) ≤ 1 ∧ (1 : ℚ) ≤ 1 ∧
    (processAndScoreBatch [c5lo, c5hi] [] allOneWeights).map
      (fun sp => sp.val.composite_score) = [400, 0] ∧
    ¬ ((400 : ℚ) ≤ 100) := by
  refine ⟨rfl, rfl, rfl, rfl, by norm_num, by norm_num, ?_, by norm_num⟩
  have hlo : cleanPostMetrics c5lo =
      { post_id := "lo", platform := "Facebook", publish_time := "2024-03-01T00:00:00Z",
        permalink := none, caption := none, image_url := none,
        views := 0, reach := 0, interactions := 0, link_clicks := 0 } := by
    simp [cleanPostMetrics, c5lo, cleanMetricValueQ_num]
  have hhi : cleanPostMetrics c5hi =
      { post_id := "hi", platform := "Facebook", publish_time := "2024-03-02T00:00:00Z",
        permalink := none, caption := none, image_url := none,
        views := 10, reach := 10, interactions := 10, link_clicks := 10 } := by
    simp [cleanPostMetrics, c5hi, cleanMetricValueQ_num]
  simp only [processAndScoreBatch, List.map_cons, List.map_nil, List.append_nil, hlo, hhi]
  norm_num [calculateMinMaxValues, getMetric, calculatePostScore, scoreTerm, normFor,
    normalizeValue, weightOf, allOneWeights, metricKeys, rankPosts, assignRanks,
    List.insertionSort, List.orderedInsert, min_def, max_def, Option.some_ne_none,
    Option.some.injEq]

/-- Claim C5 as amended: on batches whose raw metrics all clean to finite
numbers (outside that regime the source can emit `NaN` scores — the number
model's `±Infinity` passthrough, `cleanMetricValue_infinity_passthrough`,
reaches `normalizeValue` as `Infinity/Infinity`), and when additionally the
four weights sum to at most `1`, every composite score emitted by
`processAndScoreBatch` lies in `[0, 100]`.  The `FiniteMetrics` hypothesis
delimits the inputs on which the `ℚ` embedding is exact; within it the bound
is unconditional. -/
theorem processAndScoreBatch_score_in_range (newPostsRaw historicalPostsRaw : List PostDataForScoring)
    (weights : MetricWeights)
    (hfin : ∀ post ∈ newPostsRaw ++ historicalPostsRaw, FiniteMetrics post)
    (hw : ∀ key : MetricKey, 0 ≤ weightOf weights key ∧ weightOf weights key ≤ 1)
    (hsum : weightOf weights .views + weightOf weights .reach +
      weightOf weights .interactions + weightOf weights .link_clicks ≤ 1) :
    ∀ sp ∈ processAndScoreBatch newPostsRaw historicalPostsRaw weights,
      0 ≤ sp.val.composite_score ∧ sp.val.composite_score ≤ 100 := by
  intro sp hsp
  rw [show processAndScoreBatch newPostsRaw historicalPostsRaw weights =
    rankPosts (fun sp => sp.composite_score)
      ((newPostsRaw.map cleanPostMetrics).map
        (fun aCleanedNewPost => calculatePostScore aCleanedNewPost
          (calculateMinMaxValues
            (newPostsRaw.map cleanPostMetrics ++ historicalPostsRaw.map cleanPostMetrics))
          weights)) from rfl] at hsp
  have hv := List.mem_map_of_mem Ranked.val hsp
  rw [rankPosts_map_val] at hv
  have hv2 := (List.perm_insertionSort _ _).mem_iff.mp hv
  rcases List.mem_map.mp hv2 with ⟨p, hp, he⟩
  rw [← he]
  exact calculatePostScore_bounds p _ weights
    (fun key mm h => calculateMinMaxValues_min_le_max _ key mm h) hw hsum

/-- Equal weights of `1/4` for the C5 witness batch. -/
def quarterWeights : MetricWeights := fun _ => some (1 / 4)

/-- The C5 witness batch is non-empty. -/
theorem c5hi_batch_ne_nil : processAndScoreBatch [c5hi] [] quarterWeights ≠ [] := by
  intro he
  have hlen : (processAndScoreBatch [c5hi] [] quarterWeights).length = 1 := by
    rw [show processAndScoreBatch [c5hi] [] quarterWeights =
      rankPosts (fun sp => sp.composite_score)
        (([c5hi].map cleanPostMetrics).map
          (fun aCleanedNewPost => calculatePostScore aCleanedNewPost
            (calculateMinMaxValues
              ([c5hi].map cleanPostMetrics ++ List.map cleanPostMetrics []))
            quarterWeights)) from rfl]
    rw [rankPosts_length]
    simp
  rw [he] at hlen
  simp at hlen

/-- Witness for the amended C5 on a concrete singleton batch with finite
metrics and weights `1/4` each. -/
theorem processAndScoreBatch_score_in_range_witness :
    0 ≤ ((processAndScoreBatch [c5hi] [] quarterWeights).head c5hi_batch_ne_nil).val.composite_score ∧
    ((processAndScoreBatch [c5hi] [] quarterWeights).head c5hi_batch_ne_nil).val.composite_score ≤ 100 :=
  processAndScoreBatch_score_in_range [c5hi] [] quarterWeights
    (by
      intro post hpost
      have hp : post = c5hi := by simpa using hpost
      subst hp
      exact ⟨by decide, by decide, by decide, by decide⟩)
    (by
      intro key
      constructor <;> norm_num [weightOf, quarterWeights])
    (by norm_num [weightOf, quarterWeights])
    _ (List.head_mem c5hi_batch_ne_nil)

/-! ### Baseline deduplication (claim C4) -/

/-- Weight `1` on views and `0` elsewhere, isolating the views baseline. -/
def viewsOnlyWeights : MetricWeights := fun key =>
  match key with
  | .views => some 1
  | _ => some 0

/-- A freshly re-fetched post `"a"` with `views = 100`. -/
def c4newPost : PostDataForScoring :=
  { post_id := "a", platform := "Facebook", publish_time := "2024-04-02T00:00:00Z",
    permalink := none, caption := none, image_url := none,
    views := .num (.finite 100), reach := .num (.finite 0),
    interactions := .num (.finite 0), link_clicks := .num (.finite 0) }

/-- The stale historical copy of the same post `"a"` with `views = 10`. -/
def c4histPost : PostDataForScoring :=
  { post_id := "a", platform := "Facebook", publish_time := "2024-04-02T00:00:00Z",
    permalink := none, caption := none, image_url := none,
    views := .num (.finite 10), reach := .num (.finite 0),
    interactions := .num (.finite 0), link_clicks := .num (.finite 0) }

theorem c4newPost_clean : cleanPostMetrics c4newPost =
    { post_id := "a", platform := "Facebook", publish_time := "2024-04-02T00:00:00Z",
      permalink := none, caption := none, image_url := none,
      views := 100, reach := 0, interactions := 0, link_clicks := 0 } := by
  simp [cleanPostMetrics, c4newPost, cleanMetricValueQ_num]

theorem c4histPost_clean : cleanPostMetrics c4histPost =
    { post_id := "a", platform := "Facebook", publish_time := "2024-04-02T00:00:00Z",
      permalink := none, caption := none, image_url := none,
      views := 10, reach := 0, interactions := 0, link_clicks := 0 } := by
  simp [cleanPostMetrics, c4histPost, cleanMetricValueQ_num]

/-- Claim C4 counterexample: `processAndScoreBatch` performs no
deduplication.  With post `"a"` present in both inputs (new `views = 100`,
stale historical `views = 10`), the views baseline built by the code is
`{min: 10, max: 100}`, where the claimed new-supersedes-historical baseline
would be `{min: 100, max: 100}`; consequently the emitted score is `100`,
whereas dropping the superseded stale copy yields `0`. -/
theorem processAndScoreBatch_no_dedup :
    calculateMinMaxValues ([c4newPost].map cleanPostMetrics ++ [c4histPost].map cleanPostMetrics)
      MetricKey.views = some { min := 10, max := 100 } ∧
    calculateMinMaxValues ([c4newPost].map cleanPostMetrics) MetricKey.views
      = some { min := 100, max := 100 } ∧
    (processAndScoreBatch [c4newPost] [c4histPost] viewsOnlyWeights).map
      (fun sp => sp.val.composite_score) = [100] ∧
    (processAndScoreBatch [c4newPost] [] viewsOnlyWeights).map
      (fun sp => sp.val.composite_score) = [0] := by
  refine ⟨?_, ?_, ?_, ?_⟩
  · simp only [List.map_cons, List.map_nil, c4newPost_clean, c4histPost_clean,
      List.cons_append, List.nil_append]
    norm_num [calculateMinMaxValues, getMetric, min_def, max_def]
  · simp only [List.map_cons, List.map_nil, c4newPost_clean]
    norm_num [calculateMinMaxValues, getMetric, min_def, max_def]
  · simp only [processAndScoreBatch, List.map_cons, List.map_nil, List.append_nil,
      c4newPost_clean, c4histPost_clean]
    norm_num [calculateMinMaxValues, getMetric, calculatePostScore, scoreTerm, normFor,
      normalizeValue, weightOf, viewsOnlyWeights, metricKeys, rankPosts, assignRanks,
      List.insertionSort, List.orderedInsert, min_def, max_def, Option.some_ne_none,
      Option.some.injEq]
  · simp only [processAndScoreBatch, List.map_cons, List.map_nil, List.append_nil,
      c4newPost_clean]
    norm_num [calculateMinMaxValues, getMetric, calculatePostScore, scoreTerm, normFor,
      normalizeValue, weightOf, viewsOnlyWeights, metricKeys, rankPosts, assignRanks,
      List.insertionSort, List.orderedInsert, min_def, max_def, Option.some_ne_none,
      Option.some.injEq]

/-- Claim C4 as amended: when a post identifier occurs in both inputs, BOTH
records contribute to the baseline — `processAndScoreBatch` builds the
min/max context from the concatenation of the cleaned new and cleaned
historical posts with no deduplication, so every baseline entry bounds (and
its endpoints are attained by) the cleaned values of all posts in the
concatenation, the stale historical copy included. -/
theorem processAndScoreBatch_merged_baseline (newPostsRaw historicalPostsRaw : List PostDataForScoring)
    (weights : MetricWeights) (key : MetricKey) (mm : MinMaxPair)
    (hmm : calculateMinMaxValues
        (newPostsRaw.map cleanPostMetrics ++ historicalPostsRaw.map cleanPostMetrics) key
        = some mm) :
    (∀ post ∈ newPostsRaw ++ historicalPostsRaw,
      mm.min ≤ getMetric (cleanPostMetrics post) key ∧
        getMetric (cleanPostMetrics post) key ≤ mm.max) ∧
    (∃ post ∈ newPostsRaw ++ historicalPostsRaw,
      getMetric (cleanPostMetrics post) key = mm.min) ∧
    (∃ post ∈ newPostsRaw ++ historicalPostsRaw,
      getMetric (cleanPostMetrics post) key = mm.max) ∧
    processAndScoreBatch newPostsRaw historicalPostsRaw weights =
      rankPosts (fun sp => sp.composite_score)
        ((newPostsRaw.map cleanPostMetrics).map
          (fun aCleanedNewPost => calculatePostScore aCleanedNewPost
            (calculateMinMaxValues
              (newPostsRaw.map cleanPostMetrics ++ historicalPostsRaw.map cleanPostMetrics))
            weights)) := by
  have hctx : newPostsRaw.map cleanPostMetrics ++ historicalPostsRaw.map cleanPostMetrics =
      (newPostsRaw ++ historicalPostsRaw).map cleanPostMetrics :=
    (List.map_append _ _ _).symm
  rw [hctx] at hmm
  have hne : (newPostsRaw ++ historicalPostsRaw).map cleanPostMetrics ≠ [] := by
    intro he
    rw [he] at hmm
    simp [calculateMinMaxValues] at hmm
  rcases calculateMinMaxValues_spec _ hne key with ⟨mm2, he2, hb, hminat, hmaxat⟩
  have hmme : mm = mm2 := Option.some_inj.mp (hmm.symm.trans he2)
  subst hmme
  refine ⟨?_, ?_, ?_, rfl⟩
  · intro post hpost
    exact hb (cleanPostMetrics post) (List.mem_map_of_mem _ hpost)
  · rcases hminat with ⟨p, hp, hpe⟩
    rcases List.mem_map.mp hp with ⟨post, hpost, rfl⟩
    exact ⟨post, hpost, hpe⟩
  · rcases hmaxat with ⟨p, hp, hpe⟩
    rcases List.mem_map.mp hp with ⟨post, hpost, rfl⟩
    exact ⟨post, hpost, hpe⟩

/-- Witness for the amended C4 at the concrete overlapping inputs: the
merged views baseline `{min: 10, max: 100}` bounds and attains the cleaned
views of both the new record (`100`) and the stale historical record
(`10`). -/
theorem processAndScoreBatch_merged_baseline_witness :
    (∀ post ∈ [c4newPost] ++ [c4histPost],
      (10 : ℚ) ≤ getMetric (cleanPostMetrics post) MetricKey.views ∧
        getMetric (cleanPostMetrics post) MetricKey.views ≤ 100) ∧
    (∃ post ∈ [c4newPost] ++ [c4histPost],
      getMetric (cleanPostMetrics post) MetricKey.views = 10) ∧
    (∃ post ∈ [c4newPost] ++ [c4histPost],
      getMetric (cleanPostMetrics post) MetricKey.views = 100) ∧
    processAndScoreBatch [c4newPost] [c4histPost] viewsOnlyWeights =
      rankPosts (fun sp => sp.composite_score)
        (([c4newPost].map cleanPostMetrics).map
          (fun aCleanedNewPost => calculatePostScore aCleanedNewPost
            (calculateMinMaxValues
              ([c4newPost].map cleanPostMetrics ++ [c4histPost].map cleanPostMetrics))
            viewsOnlyWeights)) := by
  exact processAndScoreBatch_merged_baseline [c4newPost] [c4histPost] viewsOnlyWeights
    MetricKey.views { min := 10, max := 100 }
    (by
      simp only [List.map_cons, List.map_nil, c4newPost_clean, c4histPost_clean,
        List.cons_append, List.nil_append]
      norm_num [calculateMinMaxValues, getMetric, min_def, max_def])
